import Mathlib

/-!
# The cache manager of `middleware/cache/manager.go`

A shallow embedding of the dual-backend cache manager: the entry model
(`item`, `cacheSegments`), the `sync.Pool` of containers, and the manager
operations `acquire`, `release`, `get`, `getRaw`, `set`, `setRaw`, `del`.

Go pointers `*cacheSegments` are addresses into an explicit heap, so that
aliasing between the caller, the pool and the memory store is visible.
An operation returns `none` exactly where the Go code would dereference a
nil (or, in the model, unallocated) pointer.
-/

namespace Cache

/-! ## Data model -/

/-- Go `[]byte`: `none` is the nil slice, `some bs` a non-nil slice. -/
abbrev Bytes := Option (List Nat)

/-- Go `error`: `none` is the nil error. -/
abbrev error := Option String

/-- Go `time.Duration`. -/
abbrev Duration := Int

/-- The struct `item` (manager.go, lines 19-28). A Go map is `none` when nil and
otherwise the list of its bindings. -/
structure item where
  body : Bytes
  ctype : Bytes
  cencoding : Bytes
  status : Int
  exp : Nat
  headers : Option (List (String × Bytes))
  heapidx : Int
  deriving DecidableEq, Repr

/-- The struct `cacheSegments` (manager.go, lines 13-15). -/
structure cacheSegments where
  segments : Option (List (String × item))
  deriving DecidableEq, Repr

/-- The value `new(cacheSegments)` built by the `New` function of the pool:
the zero value, whose `segments` map is nil. -/
def cacheSegments.new : cacheSegments := { segments := none }

/-- A non-nil `*cacheSegments`: the address of a container in the heap. -/
abbrev Ptr := Nat

/-- The heap of allocated containers; the address of a container is its index. -/
abbrev Heap := List cacheSegments

/-- Dereference of a pointer. -/
def load (heap : Heap) (p : Ptr) : Option cacheSegments := heap[p]?

/-! ## Collaborators -/

/-- The interface `fiber.Storage`, as far as the manager calls it. The backend
is supplied from outside; `σ` is its state and every method may change it.
`Get` returns the pair `([]byte, error)`, `Set` and `Delete` return the error. -/
structure Storage (σ : Type) where
  Get : σ → String → (Bytes × error) × σ
  Set : σ → String → Bytes → Duration → error × σ
  Delete : σ → String → error × σ

/-- The generated msgp methods of `cacheSegments` (manager_msgp.go is not part
of the sources at hand, so both are parameters). `MarshalMsg` reads its receiver
and returns `([]byte, error)`. `UnmarshalMsg` decodes into its receiver in
place: it returns the receiver as the call leaves it, and the error. -/
structure Codec where
  MarshalMsg : cacheSegments → Bytes × error
  UnmarshalMsg : cacheSegments → Bytes → cacheSegments × error

/-- The dynamic values the manager puts into the memory store (Go
`interface{}`): a container pointer (by `set`) or a byte slice (by `setRaw`). -/
inductive MemValue where
  | seg (p : Ptr)
  | raw (b : Bytes)
  deriving DecidableEq, Repr

namespace memory

/-- Modelled from the spec: the in-memory store `internal/memory.Storage`, whose
source is missing. Spec section 6: `Get(key)` returns a previously stored value
or absent, `Set(key, value, ttl)` stores a value with expiry, `Delete(key)`.
The store is a key-value map returning what was last stored. Each binding
records its ttl; expiry sweeping belongs to the store and there is no clock
here, so the model describes the store while no ttl has elapsed. -/
abbrev Storage := List (String × MemValue × Duration)

/-- Modelled from the spec: `memory.New()`, the empty store. -/
def New : Storage := []

/-- Modelled from the spec: `Get(key)`, the stored value or absent. -/
def Get (s : Storage) (key : String) : Option MemValue :=
  match s.find? (fun e => e.1 == key) with
  | some e => some e.2.1
  | none => none

/-- Modelled from the spec: `Set(key, value, ttl)`, replacing the binding of `key`. -/
def Set (s : Storage) (key : String) (val : MemValue) (ttl : Duration) : Storage :=
  (key, val, ttl) :: s.filter (fun e => !(e.1 == key))

/-- Modelled from the spec: `Delete(key)`, removing the binding of `key`. -/
def Delete (s : Storage) (key : String) : Storage :=
  s.filter (fun e => !(e.1 == key))

end memory

/-! ## The manager -/

/-- The struct `manager` (manager.go, lines 31-35). `pool` is the content of the
`sync.Pool` (its `New` function is `cacheSegments.new`); `memory` and `storage`
are nil (`none`) or set. -/
structure manager (σ : Type) where
  pool : List Ptr
  memory : Option memory.Storage
  storage : Option σ

/-- The program state: the heap of containers and the manager. -/
structure World (σ : Type) where
  heap : Heap
  m : manager σ

/-- The function `newManager` (manager.go, lines 37-54). -/
def newManager {σ : Type} (storage : Option σ) : manager σ :=
  match storage with
  | some st => { pool := [], memory := none, storage := some st }
  | none => { pool := [], memory := some memory.New, storage := none }

/-- The state right after `newManager(storage)`; `heap0` holds the containers
the caller has built itself. -/
def World.init {σ : Type} (heap0 : Heap) (storage : Option σ) : World σ :=
  { heap := heap0, m := newManager storage }

section Ops

variable {σ : Type} (S : Storage σ) (C : Codec)

/-- The method `manager.acquire` (manager.go, lines 57-59): `m.pool.Get()`. A
`sync.Pool` hands out any pooled value, or ignores its content and calls `New`;
`pick` is that choice: the pooled value at index `pick`, or a fresh allocation
when there is none. -/
def manager.acquire (pick : Nat) (w : World σ) : Ptr × World σ :=
  match w.m.pool[pick]? with
  | some seg => (seg, { w with m := { w.m with pool := w.m.pool.eraseIdx pick } })
  | none => (w.heap.length, { w with heap := w.heap ++ [cacheSegments.new] })

/-- The method `manager.release` (manager.go, lines 62-69). -/
def manager.release (seg : Ptr) (w : World σ) : Option (World σ) :=
  if w.m.storage.isSome then
    some w
  else
    match load w.heap seg with
    | none => none
    | some c =>
      some { heap := w.heap.set seg { c with segments := none },
             m := { w.m with pool := seg :: w.m.pool } }

/-- The method `manager.get` (manager.go, lines 72-92). -/
def manager.get (pick : Nat) (key : String) (w : World σ) : Option (Ptr × World σ) :=
  match w.m.storage with
  | some st =>
    let (seg, w1) := manager.acquire pick w
    let ((raw, err), st1) := S.Get st key
    let w2 : World σ := { w1 with m := { w1.m with storage := some st1 } }
    if err.isSome then
      some (seg, w2)
    else if raw.isSome then
      match load w2.heap seg with
      | none => none
      | some c =>
        let (c1, err1) := C.UnmarshalMsg c raw
        let w3 : World σ := { w2 with heap := w2.heap.set seg c1 }
        if err1.isSome then some (seg, w3) else some (seg, w3)
    else
      some (seg, w2)
  | none =>
    match w.m.memory with
    | none => none
    | some mem =>
      match memory.Get mem key with
      | some (MemValue.seg seg) => some (seg, w)
      | _ => some (manager.acquire pick w)

/-- The method `manager.getRaw` (manager.go, lines 95-103). -/
def manager.getRaw (key : String) (w : World σ) : Option (Bytes × World σ) :=
  match w.m.storage with
  | some st =>
    let ((raw, _), st1) := S.Get st key
    some (raw, { w with m := { w.m with storage := some st1 } })
  | none =>
    match w.m.memory with
    | none => none
    | some mem =>
      match memory.Get mem key with
      | some (MemValue.raw raw) => some (raw, w)
      | _ => some (none, w)

/-- The method `manager.set` (manager.go, lines 106-116). -/
def manager.set (key : String) (seg : Ptr) (exp : Duration) (w : World σ) :
    Option (World σ) :=
  match w.m.storage with
  | some st =>
    match load w.heap seg with
    | none => none
    | some c =>
      let (raw, err) := C.MarshalMsg c
      let w1 : World σ :=
        if err.isNone then { w with m := { w.m with storage := some (S.Set st key raw exp).2 } }
        else w
      manager.release seg w1
  | none =>
    match w.m.memory with
    | none => none
    | some mem =>
      some { w with m := { w.m with memory := some (memory.Set mem key (MemValue.seg seg) exp) } }

/-- The method `manager.setRaw` (manager.go, lines 119-125). -/
def manager.setRaw (key : String) (raw : Bytes) (exp : Duration) (w : World σ) :
    Option (World σ) :=
  match w.m.storage with
  | some st =>
    some { w with m := { w.m with storage := some (S.Set st key raw exp).2 } }
  | none =>
    match w.m.memory with
    | none => none
    | some mem =>
      some { w with m := { w.m with memory := some (memory.Set mem key (MemValue.raw raw) exp) } }

/-- The method `manager.del` (manager.go, lines 128-134). -/
def manager.del (key : String) (w : World σ) : Option (World σ) :=
  match w.m.storage with
  | some st =>
    some { w with m := { w.m with storage := some (S.Delete st key).2 } }
  | none =>
    match w.m.memory with
    | none => none
    | some mem =>
      some { w with m := { w.m with memory := some (memory.Delete mem key) } }

/-! ## Traces of manager calls -/

/-- One call of a manager method by the caller. -/
inductive Op where
  | acquire (pick : Nat)
  | release (seg : Ptr)
  | get (pick : Nat) (key : String)
  | getRaw (key : String)
  | set (key : String) (seg : Ptr) (exp : Duration)
  | setRaw (key : String) (raw : Bytes) (exp : Duration)
  | del (key : String)
  deriving DecidableEq, Repr

/-- The state after one call (the returned value is dropped). -/
def step (w : World σ) : Op → Option (World σ)
  | Op.acquire pick => some (manager.acquire pick w).2
  | Op.release seg => manager.release seg w
  | Op.get pick key => (manager.get S C pick key w).map Prod.snd
  | Op.getRaw key => (manager.getRaw S key w).map Prod.snd
  | Op.set key seg exp => manager.set S C key seg exp w
  | Op.setRaw key raw exp => manager.setRaw S key raw exp w
  | Op.del key => manager.del S key w

/-- The state after a sequence of calls. -/
def run (w : World σ) : List Op → Option (World σ)
  | [] => some w
  | op :: ops => (step S C w op).bind (fun w1 => run w1 ops)

/-- Whether a call writes `key` through `set` or `setRaw`. -/
def Op.setsKey (key : String) : Op → Bool
  | Op.set k _ _ => k == key
  | Op.setRaw k _ _ => k == key
  | _ => false

end Ops

/-! ## State invariant -/

/-- The invariant of the reachable states: exactly one backend is set, the pool
is empty while a persistent backend is active, and every pooled container is
allocated with nil `segments`. -/
def Inv {σ : Type} (w : World σ) : Prop :=
  (w.m.storage.isSome = true → w.m.memory = none ∧ w.m.pool = []) ∧
  (w.m.storage = none → w.m.memory.isSome = true) ∧
  (∀ p ∈ w.m.pool, load w.heap p = some cacheSegments.new)

/-! ## Concrete collaborators, for evaluating the manager on inputs -/

/-- A persistent backend that keeps its bindings in a list and never fails;
an absent key is reported as `(nil, nil)`. -/
def mapStorage : Storage (List (String × Bytes)) where
  Get := fun st key =>
    match st.find? (fun e => e.1 == key) with
    | some e => ((e.2, none), st)
    | none => ((none, none), st)
  Set := fun st key val _ => (none, (key, val) :: st.filter (fun e => !(e.1 == key)))
  Delete := fun st key => (none, st.filter (fun e => !(e.1 == key)))

/-- A persistent backend whose `Get` always reports an error and hands back a
non-nil byte slice next to it; `Set` and `Delete` fail as well. -/
def failingStorage : Storage Unit where
  Get := fun st _ => ((some [7], some "backend unavailable"), st)
  Set := fun st _ _ _ => (some "backend unavailable", st)
  Delete := fun st _ => (some "backend unavailable", st)

/-- An entry with the given body and status and nothing else. -/
def mkItem (body : List Nat) (status : Int) : item :=
  { body := some body, ctype := none, cencoding := none, status := status, exp := 0,
    headers := none, heapidx := 0 }

/-- The dictionary of the table codec: the binding a byte stands for. -/
def tableEntry : Nat → Option (String × item)
  | 1 => some ("v1", mkItem [104, 105] 200)
  | 2 => some ("v2", mkItem [] 404)
  | _ => none

/-- The byte that stands for a binding in the table codec. -/
def tableCode (e : String × item) : Option Nat :=
  if tableEntry 1 = some e then some 1
  else if tableEntry 2 = some e then some 2
  else none

/-- The decoding loop of the table codec: reads `n` bindings into the map
`acc`, one byte each, and stops at the first byte it cannot read, leaving in the
map what it has read so far. -/
def tableDecode : Nat → List Nat → List (String × item) → List (String × item) × error
  | 0, _, acc => (acc, none)
  | _ + 1, [], acc => (acc, some "short bytes")
  | n + 1, b :: bs, acc =>
    match tableEntry b with
    | none => (acc, some "unknown entry")
    | some e => tableDecode n bs (acc.filter (fun x => !(x.1 == e.1)) ++ [e])

/-- A small codec in the manner of msgp: a container is a count byte followed
by one byte for each binding. Decoding works in place, binding after binding. -/
def tableCodec : Codec where
  MarshalMsg := fun c =>
    match (c.segments.getD []).mapM tableCode with
    | some codes => (some (codes.length :: codes), none)
    | none => (none, some "unsupported entry")
  UnmarshalMsg := fun c raw =>
    match raw.getD [] with
    | [] => (c, some "short bytes")
    | n :: bs =>
      let r := tableDecode n bs []
      ({ c with segments := some r.1 }, r.2)

/-- A caller-built container holding the one entry `v1`. -/
def demoSeg : cacheSegments := { segments := some [("v1", mkItem [104, 105] 200)] }

/-- A caller-built container with an entry outside the dictionary of the table
codec, so that encoding it fails. -/
def oddSeg : cacheSegments := { segments := some [("zz", mkItem [0] 500)] }

/-- A memory-mode state with two cleared containers, the first one pooled, and
raw bytes stored under the key `a`. -/
def pooledWorld : World Unit :=
  { heap := [cacheSegments.new, cacheSegments.new],
    m := { pool := [0], storage := none,
           memory := some [("a", MemValue.raw (some [1]), 10)] } }

end Cache

/-! ## Lemmas on the heap, the store and the invariant -/

namespace Cache

section Lemmas

variable {σ : Type} (S : Storage σ) (C : Codec)

theorem load_append_of_some {heap : Heap} {p : Ptr} {c : cacheSegments} (x : cacheSegments)
    (h : load heap p = some c) : load (heap ++ [x]) p = some c := by
  unfold load at h ⊢
  have hp : p < heap.length := by
    rcases List.getElem?_eq_some.mp h with ⟨hp, _⟩
    exact hp
  rw [List.getElem?_append_left hp]
  exact h

theorem load_append_self (heap : Heap) (x : cacheSegments) :
    load (heap ++ [x]) heap.length = some x := by
  unfold load
  rw [List.getElem?_append_right (Nat.le_refl _)]
  simp

theorem load_set_self {heap : Heap} {p : Ptr} (x : cacheSegments) (hp : p < heap.length) :
    load (heap.set p x) p = some x := by
  unfold load
  exact List.getElem?_set_self hp

theorem load_lt {heap : Heap} {p : Ptr} {c : cacheSegments} (h : load heap p = some c) :
    p < heap.length := by
  unfold load at h
  rcases List.getElem?_eq_some.mp h with ⟨hp, _⟩
  exact hp

theorem load_set_new {heap : Heap} {p q : Ptr} (hq : q < heap.length)
    (h : load heap p = some cacheSegments.new) :
    load (heap.set q cacheSegments.new) p = some cacheSegments.new := by
  by_cases hpq : q = p
  · subst hpq
    exact load_set_self _ hq
  · unfold load at h ⊢
    rw [List.getElem?_set_ne hpq]
    exact h

theorem inv_init (heap0 : Heap) (storage : Option σ) : Inv (World.init heap0 storage) := by
  cases storage <;> simp [Inv, World.init, newManager]

/-- With an empty pool, `acquire` allocates a fresh container. -/
theorem acquire_of_pool_nil (pick : Nat) (w : World σ) (h : w.m.pool = []) :
    manager.acquire pick w
      = (w.heap.length, { w with heap := w.heap ++ [cacheSegments.new] }) := by
  simp [manager.acquire, h]

/-- The container `acquire` returns has nil `segments`, and `acquire` keeps the
invariant and the backends. -/
theorem acquire_spec (pick : Nat) (w : World σ) (h : Inv w) :
    Inv (manager.acquire pick w).2 ∧
    load (manager.acquire pick w).2.heap (manager.acquire pick w).1 = some cacheSegments.new ∧
    (manager.acquire pick w).2.m.storage = w.m.storage ∧
    (manager.acquire pick w).2.m.memory = w.m.memory := by
  obtain ⟨h1, h2, h3⟩ := h
  unfold manager.acquire
  cases hp : w.m.pool[pick]? with
  | none =>
    refine ⟨⟨h1, h2, ?_⟩, ?_, rfl, rfl⟩
    · intro p hmem
      exact load_append_of_some _ (h3 p hmem)
    · exact load_append_self _ _
  | some seg =>
    refine ⟨⟨?_, h2, ?_⟩, ?_, rfl, rfl⟩
    · intro hs
      have := h1 hs
      simp [this.1, this.2]
    · intro p hmem
      exact h3 p (List.mem_of_mem_eraseIdx hmem)
    · exact h3 seg (List.getElem?_mem hp)

theorem inv_of_persistent (w : World σ) (hs : w.m.storage.isSome = true)
    (hm : w.m.memory = none) (hp : w.m.pool = []) : Inv w := by
  refine ⟨fun _ => ⟨hm, hp⟩, ?_, ?_⟩
  · intro h
    rw [h] at hs
    simp at hs
  · intro p hmem
    rw [hp] at hmem
    simp at hmem

theorem release_inv (seg : Ptr) (w w1 : World σ) (h : Inv w)
    (hr : manager.release seg w = some w1) : Inv w1 := by
  unfold manager.release at hr
  by_cases hs : w.m.storage.isSome = true
  · rw [if_pos hs] at hr
    cases hr
    exact h
  · rw [if_neg hs] at hr
    obtain ⟨_, h2, h3⟩ := h
    have hnone : w.m.storage = none := by
      cases hst : w.m.storage with
      | none => rfl
      | some st => rw [hst] at hs; simp at hs
    cases hl : load w.heap seg with
    | none => rw [hl] at hr; simp at hr
    | some c =>
      rw [hl] at hr
      simp only [Option.some.injEq] at hr
      subst hr
      refine ⟨?_, ?_, ?_⟩
      · intro hs1
        exact absurd hs1 hs
      · intro _
        exact h2 hnone
      · intro p hmem
        have hlt := load_lt hl
        rcases List.mem_cons.mp hmem with hp | hp
        · subst hp
          exact load_set_self _ hlt
        · exact load_set_new hlt (h3 p hp)

theorem get_inv (pick : Nat) (key : String) (w : World σ) (r : Ptr × World σ) (h : Inv w)
    (hg : manager.get S C pick key w = some r) : Inv r.2 := by
  unfold manager.get at hg
  cases hst : w.m.storage with
  | some st =>
    have hs : w.m.storage.isSome = true := by rw [hst]; rfl
    obtain ⟨hm, hp⟩ := h.1 hs
    rw [hst] at hg
    simp only [acquire_of_pool_nil pick w hp] at hg
    by_cases he : (S.Get st key).1.2.isSome = true
    · simp only [he, if_true, Option.some.injEq] at hg
      subst hg
      exact inv_of_persistent _ rfl hm hp
    · simp only [he, Bool.false_eq_true, if_false] at hg
      by_cases hraw : (S.Get st key).1.1.isSome = true
      · simp only [hraw, if_true, load_append_self, ite_self, Option.some.injEq] at hg
        subst hg
        exact inv_of_persistent _ rfl hm hp
      · simp only [hraw, Bool.false_eq_true, if_false, Option.some.injEq] at hg
        subst hg
        exact inv_of_persistent _ rfl hm hp
  | none =>
    rw [hst] at hg
    cases hmem : w.m.memory with
    | none => rw [hmem] at hg; simp at hg
    | some mem =>
      rw [hmem] at hg
      simp only at hg
      split at hg
      · simp only [Option.some.injEq] at hg
        subst hg
        exact h
      · simp only [Option.some.injEq] at hg
        subst hg
        exact (acquire_spec pick w h).1

theorem getRaw_inv (key : String) (w : World σ) (r : Bytes × World σ) (h : Inv w)
    (hg : manager.getRaw S key w = some r) : Inv r.2 := by
  unfold manager.getRaw at hg
  cases hst : w.m.storage with
  | some st =>
    have hs : w.m.storage.isSome = true := by rw [hst]; rfl
    obtain ⟨hm, hp⟩ := h.1 hs
    rw [hst] at hg
    simp only [Option.some.injEq] at hg
    subst hg
    exact inv_of_persistent _ rfl hm hp
  | none =>
    rw [hst] at hg
    cases hmem : w.m.memory with
    | none => rw [hmem] at hg; simp at hg
    | some mem =>
      rw [hmem] at hg
      simp only at hg
      split at hg <;>
      · simp only [Option.some.injEq] at hg
        subst hg
        exact h

/-- The value of `set` when a persistent backend is active: the store is
written when encoding succeeds, and the heap and the pool stay as they are. -/
theorem set_persistent (key : String) (seg : Ptr) (exp : Duration) (w : World σ) (st : σ)
    (c : cacheSegments) (hst : w.m.storage = some st) (hl : load w.heap seg = some c) :
    manager.set S C key seg exp w
      = some (if (C.MarshalMsg c).2.isNone = true then
          { w with m := { w.m with storage := some (S.Set st key (C.MarshalMsg c).1 exp).2 } }
        else w) := by
  unfold manager.set
  rw [hst]
  simp only [hl]
  by_cases he : (C.MarshalMsg c).2.isNone = true
  · simp [he, manager.release]
  · simp [he, manager.release, hst]

theorem set_inv (key : String) (seg : Ptr) (exp : Duration) (w w1 : World σ) (h : Inv w)
    (hr : manager.set S C key seg exp w = some w1) : Inv w1 := by
  cases hst : w.m.storage with
  | some st =>
    have hs : w.m.storage.isSome = true := by rw [hst]; rfl
    obtain ⟨hm, hp⟩ := h.1 hs
    cases hl : load w.heap seg with
    | none =>
      unfold manager.set at hr
      rw [hst] at hr
      simp [hl] at hr
    | some c =>
      rw [set_persistent S C key seg exp w st c hst hl] at hr
      simp only [Option.some.injEq] at hr
      subst hr
      by_cases he : (C.MarshalMsg c).2.isNone = true
      · rw [if_pos he]
        exact inv_of_persistent _ rfl hm hp
      · rw [if_neg he]
        exact h
  | none =>
    unfold manager.set at hr
    rw [hst] at hr
    cases hmem : w.m.memory with
    | none => rw [hmem] at hr; simp at hr
    | some mem =>
      rw [hmem] at hr
      simp only [Option.some.injEq] at hr
      subst hr
      obtain ⟨_, _, h3⟩ := h
      refine ⟨?_, fun _ => rfl, h3⟩
      intro hs
      simp [hst] at hs

theorem setRaw_inv (key : String) (raw : Bytes) (exp : Duration) (w w1 : World σ) (h : Inv w)
    (hr : manager.setRaw S key raw exp w = some w1) : Inv w1 := by
  unfold manager.setRaw at hr
  cases hst : w.m.storage with
  | some st =>
    have hs : w.m.storage.isSome = true := by rw [hst]; rfl
    obtain ⟨hm, hp⟩ := h.1 hs
    rw [hst] at hr
    simp only [Option.some.injEq] at hr
    subst hr
    exact inv_of_persistent _ rfl hm hp
  | none =>
    rw [hst] at hr
    cases hmem : w.m.memory with
    | none => rw [hmem] at hr; simp at hr
    | some mem =>
      rw [hmem] at hr
      simp only [Option.some.injEq] at hr
      subst hr
      obtain ⟨_, _, h3⟩ := h
      refine ⟨?_, fun _ => rfl, h3⟩
      intro hs
      simp [hst] at hs

theorem del_inv (key : String) (w w1 : World σ) (h : Inv w)
    (hr : manager.del S key w = some w1) : Inv w1 := by
  unfold manager.del at hr
  cases hst : w.m.storage with
  | some st =>
    have hs : w.m.storage.isSome = true := by rw [hst]; rfl
    obtain ⟨hm, hp⟩ := h.1 hs
    rw [hst] at hr
    simp only [Option.some.injEq] at hr
    subst hr
    exact inv_of_persistent _ rfl hm hp
  | none =>
    rw [hst] at hr
    cases hmem : w.m.memory with
    | none => rw [hmem] at hr; simp at hr
    | some mem =>
      rw [hmem] at hr
      simp only [Option.some.injEq] at hr
      subst hr
      obtain ⟨_, _, h3⟩ := h
      refine ⟨?_, fun _ => rfl, h3⟩
      intro hs
      simp [hst] at hs

theorem step_inv (w w1 : World σ) (op : Op) (h : Inv w) (hs : step S C w op = some w1) :
    Inv w1 := by
  cases op with
  | acquire pick =>
    simp only [step, Option.some.injEq] at hs
    subst hs
    exact (acquire_spec pick w h).1
  | release seg => exact release_inv seg w w1 h hs
  | get pick key =>
    simp only [step, Option.map_eq_some'] at hs
    obtain ⟨r, hr, rfl⟩ := hs
    exact get_inv S C pick key w r h hr
  | getRaw key =>
    simp only [step, Option.map_eq_some'] at hs
    obtain ⟨r, hr, rfl⟩ := hs
    exact getRaw_inv S key w r h hr
  | set key seg exp => exact set_inv S C key seg exp w w1 h hs
  | setRaw key raw exp => exact setRaw_inv S key raw exp w w1 h hs
  | del key => exact del_inv S key w w1 h hs

theorem run_inv (ops : List Op) (w w1 : World σ) (h : Inv w) (hr : run S C w ops = some w1) :
    Inv w1 := by
  induction ops generalizing w with
  | nil =>
    simp only [run, Option.some.injEq] at hr
    subst hr
    exact h
  | cons op ops ih =>
    simp only [run] at hr
    cases hs : step S C w op with
    | none => rw [hs] at hr; simp at hr
    | some w2 =>
      rw [hs] at hr
      exact ih w2 (step_inv S C w w2 op h hs) hr

/-- Every state reached from `newManager` satisfies the invariant. -/
theorem reachable_inv (heap0 : Heap) (storage : Option σ) (ops : List Op) (w : World σ)
    (hr : run S C (World.init heap0 storage) ops = some w) : Inv w :=
  run_inv S C ops _ w (inv_init heap0 storage) hr

/-! ### The memory store -/

theorem find_filter_ne (s : memory.Storage) (k key : String) (hk : k ≠ key) :
    (s.filter (fun e => !(e.1 == k))).find? (fun e => e.1 == key)
      = s.find? (fun e => e.1 == key) := by
  induction s with
  | nil => rfl
  | cons e s ih =>
    by_cases h1 : e.1 = k
    · have h2 : ¬ e.1 = key := fun h => hk (h1.symm.trans h)
      simp [List.filter_cons, List.find?_cons, h1, h2, hk, ih]
    · by_cases h2 : e.1 = key
      · have h3 : ¬ key = k := fun h => hk h.symm
        simp [List.filter_cons, List.find?_cons, h1, h2, h3]
      · simp [List.filter_cons, List.find?_cons, h1, h2, ih]

theorem find_filter_self (s : memory.Storage) (key : String) :
    (s.filter (fun e => !(e.1 == key))).find? (fun e => e.1 == key) = none := by
  induction s with
  | nil => rfl
  | cons e s ih =>
    by_cases h1 : e.1 = key
    · simp [List.filter_cons, h1]
    · simp [List.filter_cons, List.find?_cons, h1]

theorem memory_Get_filter_ne (s : memory.Storage) (k key : String) (hk : k ≠ key) :
    memory.Get (s.filter (fun e => !(e.1 == k))) key = memory.Get s key := by
  unfold memory.Get
  rw [find_filter_ne s k key hk]

theorem memory_Get_filter_self (s : memory.Storage) (key : String) :
    memory.Get (s.filter (fun e => !(e.1 == key))) key = none := by
  unfold memory.Get
  rw [find_filter_self s key]

theorem memory_Get_Set_self (s : memory.Storage) (key : String) (v : MemValue) (ttl : Duration) :
    memory.Get (memory.Set s key v ttl) key = some v := by
  simp [memory.Get, memory.Set]

theorem memory_Get_Set_ne (s : memory.Storage) (k key : String) (v : MemValue) (ttl : Duration)
    (hk : k ≠ key) : memory.Get (memory.Set s k v ttl) key = memory.Get s key := by
  have h := memory_Get_filter_ne s k key hk
  have h3 : (k == key) = false := by simp [hk]
  unfold memory.Set
  unfold memory.Get at h ⊢
  simp only [List.find?_cons, h3]
  exact h

theorem memory_Get_Delete_self (s : memory.Storage) (key : String) :
    memory.Get (memory.Delete s key) key = none :=
  memory_Get_filter_self s key

theorem memory_Get_Delete_ne (s : memory.Storage) (k key : String) (hk : k ≠ key) :
    memory.Get (memory.Delete s k) key = memory.Get s key :=
  memory_Get_filter_ne s k key hk

/-! ### The value of `get` and `getRaw` in each mode -/

/-- The container `get` returns when a persistent backend is active and the
pool is empty: a fresh one, left as it was allocated when the backend reports
an error or no bytes, and as the decoder leaves it otherwise. -/
theorem get_persistent (pick : Nat) (key : String) (w : World σ) (st : σ)
    (hst : w.m.storage = some st) (hp : w.m.pool = []) :
    ∃ w1, manager.get S C pick key w = some (w.heap.length, w1) ∧
      load w1.heap w.heap.length
        = some (if (S.Get st key).1.2.isSome = true then cacheSegments.new
            else if (S.Get st key).1.1.isSome = true then
              (C.UnmarshalMsg cacheSegments.new (S.Get st key).1.1).1
            else cacheSegments.new) ∧
      w1.m.storage = some (S.Get st key).2 := by
  unfold manager.get
  rw [hst]
  simp only [acquire_of_pool_nil pick w hp]
  by_cases he : (S.Get st key).1.2.isSome = true
  · simp only [he, if_true]
    exact ⟨_, rfl, load_append_self _ _, rfl⟩
  · simp only [he, Bool.false_eq_true, if_false]
    by_cases hraw : (S.Get st key).1.1.isSome = true
    · simp only [hraw, if_true, load_append_self, ite_self]
      refine ⟨_, rfl, ?_, rfl⟩
      apply load_set_self
      simp
    · simp only [hraw, Bool.false_eq_true, if_false]
      exact ⟨_, rfl, load_append_self _ _, rfl⟩

theorem get_memory_seg (pick : Nat) (key : String) (w : World σ) (mem : memory.Storage)
    (p : Ptr) (hst : w.m.storage = none) (hmem : w.m.memory = some mem)
    (hg : memory.Get mem key = some (MemValue.seg p)) :
    manager.get S C pick key w = some (p, w) := by
  unfold manager.get
  rw [hst, hmem]
  simp only [hg]

theorem get_memory_miss (pick : Nat) (key : String) (w : World σ) (mem : memory.Storage)
    (hst : w.m.storage = none) (hmem : w.m.memory = some mem)
    (hg : ∀ p, memory.Get mem key ≠ some (MemValue.seg p)) :
    manager.get S C pick key w = some (manager.acquire pick w) := by
  unfold manager.get
  rw [hst, hmem]
  simp only

theorem getRaw_persistent (key : String) (w : World σ) (st : σ) (hst : w.m.storage = some st) :
    manager.getRaw S key w
      = some ((S.Get st key).1.1, { w with m := { w.m with storage := some (S.Get st key).2 } }) := by
  unfold manager.getRaw
  rw [hst]

theorem getRaw_memory_raw (key : String) (w : World σ) (mem : memory.Storage) (b : Bytes)
    (hst : w.m.storage = none) (hmem : w.m.memory = some mem)
    (hg : memory.Get mem key = some (MemValue.raw b)) :
    manager.getRaw S key w = some (b, w) := by
  unfold manager.getRaw
  rw [hst, hmem]
  simp only [hg]

theorem getRaw_memory_miss (key : String) (w : World σ) (mem : memory.Storage)
    (hst : w.m.storage = none) (hmem : w.m.memory = some mem)
    (hg : ∀ b, memory.Get mem key ≠ some (MemValue.raw b)) :
    manager.getRaw S key w = some (none, w) := by
  unfold manager.getRaw
  rw [hst, hmem]
  simp only

/-- In a state with the invariant and no persistent backend, the memory store
is set. -/
theorem inv_memory (w : World σ) (h : Inv w) (hst : w.m.storage = none) :
    ∃ mem, w.m.memory = some mem := by
  have := h.2.1 hst
  cases hm : w.m.memory with
  | none => rw [hm] at this; simp at this
  | some mem => exact ⟨mem, rfl⟩

end Lemmas

end Cache

/-! ## The claims -/

namespace Cache

section Claims

variable {σ : Type} (S : Storage σ) (C : Codec)

/-- C2. Pool invariant: in every state reached from `newManager` by any sequence
of `acquire`, `release`, `get`, `set`, `setRaw`, `getRaw` and `del` calls, the
container that `acquire` returns is allocated and has nil `segments`, whether
the pool allocates it afresh or hands out a released one (`pick`). -/
theorem acquire_returns_empty_container (heap0 : Heap) (storage : Option σ) (ops : List Op)
    (w : World σ) (hr : run S C (World.init heap0 storage) ops = some w) (pick : Nat) :
    load (manager.acquire pick w).2.heap (manager.acquire pick w).1
      = some { segments := none } :=
  (acquire_spec pick w (reachable_inv S C heap0 storage ops w hr)).2.1

/-- Witness of C2: the caller releases its non-empty container to the pool of a
memory-mode manager, stores and reads a key, and then acquires the released
container again. -/
theorem acquire_returns_empty_container_witness :
    run failingStorage tableCodec (World.init [demoSeg] none)
        [Op.release 0, Op.setRaw "a" (some [1]) 10, Op.get 5 "b"] = some pooledWorld ∧
    load (manager.acquire 0 pooledWorld).2.heap (manager.acquire 0 pooledWorld).1
      = some { segments := none } :=
  ⟨rfl, acquire_returns_empty_container failingStorage tableCodec [demoSeg] none
    [Op.release 0, Op.setRaw "a" (some [1]) 10, Op.get 5 "b"] pooledWorld rfl 0⟩

/-- C4. `release` is gated on the backend. With the memory store active
(`storage` nil), `release(c)` sets `c.segments` to nil and adds `c` to the pool,
and leaves the other containers and both backends as they are. With a
persistent backend active, `release(c)` is a no-op: the whole state, with
`c.segments`, the pool and the backend, is unchanged. -/
theorem release_gated (w : World σ) (seg : Ptr) (hc : seg < w.heap.length) :
    (w.m.storage = none →
      ∃ w1, manager.release seg w = some w1 ∧
        load w1.heap seg = some { segments := none } ∧
        w1.m.pool = seg :: w.m.pool ∧
        (∀ p, p ≠ seg → load w1.heap p = load w.heap p) ∧
        w1.m.memory = w.m.memory ∧ w1.m.storage = w.m.storage) ∧
    (w.m.storage.isSome = true → manager.release seg w = some w) := by
  constructor
  · intro hst
    have hl : load w.heap seg = some (w.heap[seg]) := by
      unfold load
      exact List.getElem?_eq_getElem hc
    refine ⟨{ heap := w.heap.set seg { segments := none },
              m := { w.m with pool := seg :: w.m.pool } },
      ?_, load_set_self _ hc, rfl, ?_, rfl, rfl⟩
    · unfold manager.release
      rw [hst, hl]
      rfl
    · intro p hp
      unfold load
      exact List.getElem?_set_ne (fun h => hp h.symm)
  · intro hs
    unfold manager.release
    rw [if_pos hs]

/-- Witness of C4: the same non-empty container released in memory mode (it is
cleared and pooled) and in persistent mode (nothing changes). -/
theorem release_gated_witness :
    (∃ w1, manager.release 0 (World.init [demoSeg] (none : Option Unit)) = some w1 ∧
        load w1.heap 0 = some { segments := none } ∧
        w1.m.pool = 0 :: (World.init [demoSeg] (none : Option Unit)).m.pool ∧
        (∀ p, p ≠ 0 → load w1.heap p = load (World.init [demoSeg] (none : Option Unit)).heap p) ∧
        w1.m.memory = (World.init [demoSeg] (none : Option Unit)).m.memory ∧
        w1.m.storage = (World.init [demoSeg] (none : Option Unit)).m.storage) ∧
    manager.release 0 (World.init [demoSeg] (some ())) = some (World.init [demoSeg] (some ())) :=
  ⟨(release_gated (World.init [demoSeg] (none : Option Unit)) 0 (by decide)).1 rfl,
   (release_gated (World.init [demoSeg] (some ())) 0 (by decide)).2 rfl⟩

/-- C5. With a persistent backend active, when the backend `Get` reports an
error for the key, `get(key)` returns a container with nil `segments`, whatever
bytes the backend returned next to the error; `get` itself returns normally
and has no error result. -/
theorem get_backend_error_empty (heap0 : Heap) (storage : Option σ) (ops : List Op)
    (w : World σ) (hr : run S C (World.init heap0 storage) ops = some w) (st : σ)
    (hst : w.m.storage = some st) (pick : Nat) (key : String)
    (herr : (S.Get st key).1.2 ≠ none) :
    ∃ p w1, manager.get S C pick key w = some (p, w1) ∧
      load w1.heap p = some { segments := none } := by
  have hinv := reachable_inv S C heap0 storage ops w hr
  have hs : w.m.storage.isSome = true := by rw [hst]; rfl
  obtain ⟨w1, hg, hl, _⟩ := get_persistent S C pick key w st hst (hinv.1 hs).2
  have he : (S.Get st key).1.2.isSome = true := by
    cases h : (S.Get st key).1.2 with
    | none => exact absurd h herr
    | some e => rfl
  rw [if_pos he] at hl
  exact ⟨_, w1, hg, hl⟩

/-- Witness of C5: a backend that fails on every `Get` and returns the bytes
`[7]` next to the error. -/
theorem get_backend_error_empty_witness :
    (failingStorage.Get () "k").1.2 ≠ none ∧
    ∃ p w1, manager.get failingStorage tableCodec 0 "k" (World.init [demoSeg] (some ()))
        = some (p, w1) ∧
      load w1.heap p = some { segments := none } :=
  ⟨by decide, get_backend_error_empty failingStorage tableCodec [demoSeg] (some ()) [] _ rfl ()
    rfl 0 "k" (by decide)⟩

/-- C1. Round trip of the typed path, in both backend modes: in every reachable
state, `set(key, c, ttl)` followed at once by `get(key)` returns a container
whose `segments` equal `c.segments` as they were when `set` was called. In
memory mode the store returns what was last stored. In persistent mode the
hypotheses are that encoding `c` yields bytes, that the backend `Get` returns
without error the bytes last given to `Set` for the key, and that decoding those
bytes into an empty container restores the segments of `c`. -/
theorem set_get_roundtrip (heap0 : Heap) (storage : Option σ) (ops : List Op)
    (w : World σ) (hr : run S C (World.init heap0 storage) ops = some w)
    (key : String) (seg : Ptr) (c : cacheSegments) (exp : Duration) (pick : Nat)
    (hc : load w.heap seg = some c)
    (hback : ∀ st, w.m.storage = some st →
      ∃ bs, C.MarshalMsg c = (some bs, none) ∧
        (S.Get (S.Set st key (some bs) exp).2 key).1 = (some bs, none) ∧
        (C.UnmarshalMsg cacheSegments.new (some bs)).1.segments = c.segments) :
    ∃ w1 p w2 c2, manager.set S C key seg exp w = some w1 ∧
      manager.get S C pick key w1 = some (p, w2) ∧
      load w2.heap p = some c2 ∧ c2.segments = c.segments := by
  have hinv := reachable_inv S C heap0 storage ops w hr
  cases hst : w.m.storage with
  | none =>
    obtain ⟨mem, hmem⟩ := inv_memory w hinv hst
    have hset : manager.set S C key seg exp w = some
        { w with m := { w.m with memory := some (memory.Set mem key (MemValue.seg seg) exp) } } := by
      unfold manager.set
      rw [hst, hmem]
    exact ⟨_, seg, _, c, hset,
      get_memory_seg S C pick key _ (memory.Set mem key (MemValue.seg seg) exp) seg hst rfl
        (memory_Get_Set_self mem key _ exp), hc, rfl⟩
  | some st =>
    have hs : w.m.storage.isSome = true := by rw [hst]; rfl
    obtain ⟨bs, henc, hget, hdec⟩ := hback st hst
    have hset := set_persistent S C key seg exp w st c hst hc
    rw [henc] at hset
    simp only [Option.isNone_none, if_true] at hset
    obtain ⟨w2, hg, hl, _⟩ := get_persistent S C pick key
      { w with m := { w.m with storage := some (S.Set st key (some bs) exp).2 } }
      (S.Set st key (some bs) exp).2 rfl (hinv.1 hs).2
    rw [hget] at hl
    simp only [Option.isSome_none, Bool.false_eq_true, if_false, Option.isSome_some,
      if_true] at hl
    exact ⟨_, _, w2, _, hset, hg, hl, hdec⟩

/-- Witness of C1, in memory mode and in persistent mode (a backend keeping its
bindings in a list, and the table codec). -/
theorem set_get_roundtrip_witness :
    (∃ w1 p w2 c2, manager.set failingStorage tableCodec "a" 0 10 (World.init [demoSeg] none)
        = some w1 ∧
      manager.get failingStorage tableCodec 0 "a" w1 = some (p, w2) ∧
      load w2.heap p = some c2 ∧ c2.segments = demoSeg.segments) ∧
    (∃ w1 p w2 c2, manager.set mapStorage tableCodec "a" 0 10 (World.init [demoSeg] (some []))
        = some w1 ∧
      manager.get mapStorage tableCodec 0 "a" w1 = some (p, w2) ∧
      load w2.heap p = some c2 ∧ c2.segments = demoSeg.segments) :=
  ⟨set_get_roundtrip failingStorage tableCodec [demoSeg] none [] _ rfl "a" 0 demoSeg 10 0 rfl
      (fun _ h => by simp [World.init, newManager] at h),
   set_get_roundtrip mapStorage tableCodec [demoSeg] (some []) [] _ rfl "a" 0 demoSeg 10 0 rfl
      (fun st h => by
        have hst : st = [] := by
          simp only [World.init, newManager, Option.some.injEq] at h
          exact h.symm
        subst hst
        exact ⟨[1, 1], by decide, by decide, by decide⟩)⟩

/-- C9. Round trip of the raw path, in both backend modes: in every reachable
state, `setRaw(key, b, ttl)` followed at once by `getRaw(key)` returns `b`. In
persistent mode the hypothesis is that the backend `Get` returns without error
the bytes last given to `Set` for the key. -/
theorem setRaw_getRaw_roundtrip (heap0 : Heap) (storage : Option σ) (ops : List Op)
    (w : World σ) (hr : run S C (World.init heap0 storage) ops = some w)
    (key : String) (raw : Bytes) (exp : Duration)
    (hback : ∀ st, w.m.storage = some st →
      (S.Get (S.Set st key raw exp).2 key).1 = (raw, none)) :
    ∃ w1 w2, manager.setRaw S key raw exp w = some w1 ∧
      manager.getRaw S key w1 = some (raw, w2) := by
  have hinv := reachable_inv S C heap0 storage ops w hr
  cases hst : w.m.storage with
  | none =>
    obtain ⟨mem, hmem⟩ := inv_memory w hinv hst
    have hset : manager.setRaw S key raw exp w = some
        { w with m := { w.m with memory := some (memory.Set mem key (MemValue.raw raw) exp) } } := by
      unfold manager.setRaw
      rw [hst, hmem]
    exact ⟨_, _, hset,
      getRaw_memory_raw S key _ (memory.Set mem key (MemValue.raw raw) exp) raw hst rfl
        (memory_Get_Set_self mem key _ exp)⟩
  | some st =>
    have hget := hback st hst
    have hset : manager.setRaw S key raw exp w = some
        { w with m := { w.m with storage := some (S.Set st key raw exp).2 } } := by
      unfold manager.setRaw
      rw [hst]
    have hg := getRaw_persistent S key
      { w with m := { w.m with storage := some (S.Set st key raw exp).2 } }
      (S.Set st key raw exp).2 rfl
    rw [hget] at hg
    exact ⟨_, _, hset, hg⟩

/-- Witness of C9, in memory mode and in persistent mode. -/
theorem setRaw_getRaw_roundtrip_witness :
    (∃ w1 w2, manager.setRaw failingStorage "a" (some [1, 2, 3]) 10 (World.init [] none) = some w1 ∧
      manager.getRaw failingStorage "a" w1 = some (some [1, 2, 3], w2)) ∧
    (∃ w1 w2, manager.setRaw mapStorage "a" (some [1, 2, 3]) 10 (World.init [] (some [])) = some w1 ∧
      manager.getRaw mapStorage "a" w1 = some (some [1, 2, 3], w2)) :=
  ⟨setRaw_getRaw_roundtrip failingStorage tableCodec [] none [] _ rfl "a" (some [1, 2, 3]) 10
      (fun _ h => by simp [World.init, newManager] at h),
   setRaw_getRaw_roundtrip mapStorage tableCodec [] (some []) [] _ rfl "a" (some [1, 2, 3]) 10
      (fun st h => by
        have hst : st = [] := by
          simp only [World.init, newManager, Option.some.injEq] at h
          exact h.symm
        subst hst
        decide)⟩

/-- C3. Evaluation at the failing input: with a persistent backend active, `set`
returns with the container still holding its segments and with the pool still
empty, both when encoding succeeds (the bytes are stored) and when it fails (no
store): the `release` call inside `set` returns early because `storage` is set. -/
theorem set_persistent_does_not_release :
    (∃ w1, manager.set mapStorage tableCodec "k" 0 10 (World.init [demoSeg] (some [])) = some w1 ∧
      w1.m.storage = some [("k", some [1, 1])] ∧
      load w1.heap 0 = some demoSeg ∧ w1.m.pool = []) ∧
    (∃ w1, manager.set mapStorage tableCodec "k" 0 10 (World.init [oddSeg] (some [])) = some w1 ∧
      w1.m.storage = some [] ∧
      load w1.heap 0 = some oddSeg ∧ w1.m.pool = []) :=
  ⟨⟨_, rfl, rfl, rfl, rfl⟩, ⟨_, rfl, rfl, rfl, rfl⟩⟩

/-- C6 (amended). With a persistent backend active, when the backend `Get`
returns bytes without error, `get(key)` returns normally the freshly acquired
container as `UnmarshalMsg` left it, also when decoding fails: after a failed
decoding its `segments` are nil whenever the decoder left its receiver as it
was, and otherwise they hold what the decoder wrote before it failed. -/
theorem get_decode_failure (heap0 : Heap) (storage : Option σ) (ops : List Op)
    (w : World σ) (hr : run S C (World.init heap0 storage) ops = some w) (st : σ)
    (hst : w.m.storage = some st) (pick : Nat) (key : String) (bs : List Nat)
    (hget : (S.Get st key).1 = (some bs, none)) :
    ∃ p w1, manager.get S C pick key w = some (p, w1) ∧
      load w1.heap p = some (C.UnmarshalMsg cacheSegments.new (some bs)).1 ∧
      ((C.UnmarshalMsg cacheSegments.new (some bs)).1 = cacheSegments.new →
        load w1.heap p = some { segments := none }) := by
  have hinv := reachable_inv S C heap0 storage ops w hr
  have hs : w.m.storage.isSome = true := by rw [hst]; rfl
  obtain ⟨w1, hg, hl, _⟩ := get_persistent S C pick key w st hst (hinv.1 hs).2
  rw [hget] at hl
  simp only [Option.isSome_none, Bool.false_eq_true, if_false, Option.isSome_some,
    if_true] at hl
  refine ⟨_, w1, hg, hl, ?_⟩
  intro h
  rw [hl, h]
  rfl

/-- Witness of C6 (amended): the backend holds an empty byte slice for the key;
the table codec fails on it at once and leaves its receiver alone, and `get`
returns an empty container. -/
theorem get_decode_failure_witness :
    (mapStorage.Get [("k", some [])] "k").1 = (some [], none) ∧
    (tableCodec.UnmarshalMsg cacheSegments.new (some [])).2 ≠ none ∧
    ∃ p w1, manager.get mapStorage tableCodec 0 "k" (World.init [] (some [("k", some [])]))
        = some (p, w1) ∧
      load w1.heap p = some (tableCodec.UnmarshalMsg cacheSegments.new (some [])).1 ∧
      ((tableCodec.UnmarshalMsg cacheSegments.new (some [])).1 = cacheSegments.new →
        load w1.heap p = some { segments := none }) :=
  ⟨by decide, by decide,
    get_decode_failure mapStorage tableCodec [] (some [("k", some [])]) [] _ rfl
      [("k", some [])] rfl 0 "k" [] (by decide)⟩

/-- Counterexample to C6: the backend returns, without error, the bytes `[2, 1]`,
which announce two bindings and hold one. Decoding fails after the first
binding, and `get` returns the container with that binding in its `segments`. -/
theorem get_decode_failure_counterexample :
    (mapStorage.Get [("k", some [2, 1])] "k").1 = (some [2, 1], none) ∧
    (tableCodec.UnmarshalMsg cacheSegments.new (some [2, 1])).2 = some "short bytes" ∧
    ∃ w1, manager.get mapStorage tableCodec 0 "k" (World.init [] (some [("k", some [2, 1])]))
        = some (0, w1) ∧
      load w1.heap 0 = some { segments := some [("v1", mkItem [104, 105] 200)] } :=
  ⟨by decide, by decide, _, rfl, rfl⟩

/-- C7. Evaluation at the failing input: with a persistent backend active whose
`Get` reports an error and returns the bytes `[7]` next to it, `getRaw` drops the
error without looking at it and returns `[7]`, not an empty result, whereas
`get` on the same key and state checks the error and returns an empty
container. -/
theorem getRaw_backend_error_returns_bytes :
    (failingStorage.Get () "k").1.2 ≠ none ∧
    (manager.getRaw failingStorage "k" (World.init [] (some ()))).map Prod.fst
      = some (some [7]) ∧
    (manager.getRaw failingStorage "k" (World.init [] (some ()))).map Prod.fst ≠ some none ∧
    (manager.get failingStorage tableCodec 0 "k" (World.init [] (some ()))).map
        (fun r => load r.2.heap r.1) = some (some { segments := none }) :=
  ⟨by decide, rfl, by decide, rfl⟩

/-- A call that does not write `key` keeps the memory store without a binding
for `key`. -/
theorem step_noKey (key : String) (w w1 : World σ) (op : Op) (hinv : Inv w)
    (hno : Op.setsKey key op = false)
    (hP : ∀ mem, w.m.memory = some mem → memory.Get mem key = none)
    (hs : step S C w op = some w1) :
    ∀ mem, w1.m.memory = some mem → memory.Get mem key = none := by
  have hinv1 := step_inv S C w w1 op hinv hs
  intro mem1 hm1
  cases hst : w.m.storage with
  | some st =>
    -- a persistent backend stays active, and then there is no memory store
    have hs0 : w.m.storage.isSome = true := by rw [hst]; rfl
    have hp := (hinv.1 hs0).2
    have hsome : w1.m.storage.isSome = true := by
      cases op with
      | acquire pick =>
        simp only [step, Option.some.injEq] at hs
        subst hs
        rw [(acquire_spec pick w hinv).2.2.1]
        exact hs0
      | release seg =>
        simp only [step, manager.release, hs0, if_true, Option.some.injEq] at hs
        subst hs
        exact hs0
      | get pick k =>
        simp only [step, Option.map_eq_some'] at hs
        obtain ⟨r, hr, rfl⟩ := hs
        obtain ⟨w2, hg, _, hst2⟩ := get_persistent S C pick k w st hst hp
        rw [hg] at hr
        simp only [Option.some.injEq] at hr
        subst hr
        simp [hst2]
      | getRaw k =>
        simp only [step, Option.map_eq_some'] at hs
        obtain ⟨r, hr, rfl⟩ := hs
        rw [getRaw_persistent S k w st hst] at hr
        simp only [Option.some.injEq] at hr
        subst hr
        rfl
      | set k seg exp =>
        simp only [step] at hs
        cases hl : load w.heap seg with
        | none =>
          unfold manager.set at hs
          rw [hst] at hs
          simp [hl] at hs
        | some c =>
          rw [set_persistent S C k seg exp w st c hst hl] at hs
          simp only [Option.some.injEq] at hs
          subst hs
          by_cases he : (C.MarshalMsg c).2.isNone = true
          · rw [if_pos he]
            rfl
          · rw [if_neg he]
            exact hs0
      | setRaw k raw exp =>
        simp only [step, manager.setRaw, hst, Option.some.injEq] at hs
        subst hs
        rfl
      | del k =>
        simp only [step, manager.del, hst, Option.some.injEq] at hs
        subst hs
        rfl
    have := (hinv1.1 hsome).1
    rw [this] at hm1
    exact absurd hm1 (by simp)
  | none =>
    obtain ⟨mem, hmem⟩ := inv_memory w hinv hst
    have hP0 := hP mem hmem
    have hs0 : ¬ w.m.storage.isSome = true := by rw [hst]; simp
    cases op with
    | acquire pick =>
      simp only [step, Option.some.injEq] at hs
      subst hs
      rw [(acquire_spec pick w hinv).2.2.2] at hm1
      exact hP mem1 hm1
    | release seg =>
      simp only [step, manager.release, hs0, if_false] at hs
      cases hl : load w.heap seg with
      | none => rw [hl] at hs; simp at hs
      | some c =>
        rw [hl] at hs
        simp only [Bool.false_eq_true, if_false, Option.some.injEq] at hs
        subst hs
        exact hP mem1 hm1
    | get pick k =>
      simp only [step, Option.map_eq_some'] at hs
      obtain ⟨r, hr, rfl⟩ := hs
      unfold manager.get at hr
      rw [hst, hmem] at hr
      simp only at hr
      split at hr
      · simp only [Option.some.injEq] at hr
        subst hr
        exact hP mem1 hm1
      · simp only [Option.some.injEq] at hr
        subst hr
        rw [(acquire_spec pick w hinv).2.2.2] at hm1
        exact hP mem1 hm1
    | getRaw k =>
      simp only [step, Option.map_eq_some'] at hs
      obtain ⟨r, hr, rfl⟩ := hs
      unfold manager.getRaw at hr
      rw [hst, hmem] at hr
      simp only at hr
      split at hr <;>
      · simp only [Option.some.injEq] at hr
        subst hr
        exact hP mem1 hm1
    | set k seg exp =>
      simp only [step, manager.set, hst, hmem, Option.some.injEq] at hs
      subst hs
      simp only [Option.some.injEq] at hm1
      subst hm1
      have hk : k ≠ key := by
        simpa [Op.setsKey] using hno
      rw [memory_Get_Set_ne mem k key _ exp hk]
      exact hP0
    | setRaw k raw exp =>
      simp only [step, manager.setRaw, hst, hmem, Option.some.injEq] at hs
      subst hs
      simp only [Option.some.injEq] at hm1
      subst hm1
      have hk : k ≠ key := by
        simpa [Op.setsKey] using hno
      rw [memory_Get_Set_ne mem k key _ exp hk]
      exact hP0
    | del k =>
      simp only [step, manager.del, hst, hmem, Option.some.injEq] at hs
      subst hs
      simp only [Option.some.injEq] at hm1
      subst hm1
      by_cases hk : k = key
      · subst hk
        exact memory_Get_Delete_self mem k
      · rw [memory_Get_Delete_ne mem k key hk]
        exact hP0

/-- A sequence of calls none of which writes `key` keeps the memory store
without a binding for `key`. -/
theorem run_noKey (key : String) (ops : List Op) (w w1 : World σ) (hinv : Inv w)
    (hno : ∀ op ∈ ops, Op.setsKey key op = false)
    (hP : ∀ mem, w.m.memory = some mem → memory.Get mem key = none)
    (hr : run S C w ops = some w1) :
    ∀ mem, w1.m.memory = some mem → memory.Get mem key = none := by
  induction ops generalizing w with
  | nil =>
    simp only [run, Option.some.injEq] at hr
    subst hr
    exact hP
  | cons op ops ih =>
    simp only [run] at hr
    cases hs : step S C w op with
    | none => rw [hs] at hr; simp at hr
    | some w2 =>
      rw [hs] at hr
      exact ih w2 (step_inv S C w w2 op hinv hs)
        (fun o ho => hno o (List.mem_cons_of_mem op ho))
        (step_noKey S C key w w2 op hinv (hno op (List.mem_cons_self op ops)) hP hs) hr

/-- C8 (amended). Miss implies empty. In memory mode, for a key never written by
`set` or `setRaw` since `newManager`, `get(key)` returns normally a container
with nil `segments`; so it does when the key holds a value that is not a
container (stored by `setRaw`), and the container then comes from the pool. In
persistent mode `get(key)` returns a container with nil `segments` whenever the
backend `Get` reports an error or no bytes for the key. -/
theorem get_miss_empty (heap0 : Heap) (storage : Option σ) (ops : List Op)
    (w : World σ) (hr : run S C (World.init heap0 storage) ops = some w)
    (pick : Nat) (key : String) :
    (w.m.storage = none → (∀ op ∈ ops, Op.setsKey key op = false) →
      ∃ p w1, manager.get S C pick key w = some (p, w1) ∧
        load w1.heap p = some { segments := none }) ∧
    (∀ mem b, w.m.memory = some mem → memory.Get mem key = some (MemValue.raw b) →
      manager.get S C pick key w = some (manager.acquire pick w) ∧
      load (manager.acquire pick w).2.heap (manager.acquire pick w).1
        = some { segments := none }) ∧
    (∀ st, w.m.storage = some st →
      ((S.Get st key).1.2 ≠ none ∨ (S.Get st key).1.1 = none) →
      ∃ p w1, manager.get S C pick key w = some (p, w1) ∧
        load w1.heap p = some { segments := none }) := by
  have hinv := reachable_inv S C heap0 storage ops w hr
  refine ⟨?_, ?_, ?_⟩
  · intro hst hno
    obtain ⟨mem, hmem⟩ := inv_memory w hinv hst
    have hP0 : ∀ mem, (World.init heap0 storage).m.memory = some mem →
        memory.Get mem key = none := by
      intro m0 hm0
      cases storage with
      | none =>
        simp only [World.init, newManager, Option.some.injEq] at hm0
        subst hm0
        rfl
      | some st0 => simp [World.init, newManager] at hm0
    have hnone := run_noKey S C key ops _ w (inv_init heap0 storage) hno hP0 hr mem hmem
    have hg := get_memory_miss S C pick key w mem hst hmem (by rw [hnone]; simp)
    exact ⟨_, _, hg, (acquire_spec pick w hinv).2.1⟩
  · intro mem b hmem hraw
    have hst : w.m.storage = none := by
      cases h : w.m.storage with
      | none => rfl
      | some st =>
        have := (hinv.1 (by rw [h]; rfl)).1
        rw [this] at hmem
        exact absurd hmem (by simp)
    exact ⟨get_memory_miss S C pick key w mem hst hmem (by rw [hraw]; simp),
      (acquire_spec pick w hinv).2.1⟩
  · intro st hst hmiss
    have hs : w.m.storage.isSome = true := by rw [hst]; rfl
    obtain ⟨w1, hg, hl, _⟩ := get_persistent S C pick key w st hst (hinv.1 hs).2
    refine ⟨_, w1, hg, ?_⟩
    rw [hl]
    rcases hmiss with he | hraw
    · have he1 : (S.Get st key).1.2.isSome = true := by
        cases h : (S.Get st key).1.2 with
        | none => exact absurd h he
        | some e => rfl
      rw [if_pos he1]
      rfl
    · rw [hraw]
      simp only [Option.isSome_none, Bool.false_eq_true, if_false, ite_self]
      rfl

/-- Witness of C8 (amended): a memory-mode trace that never writes `b`, the key
`a` holding raw bytes, and a persistent backend with nothing under `k`. -/
theorem get_miss_empty_witness :
    (∃ p w1, manager.get failingStorage tableCodec 0 "b" pooledWorld = some (p, w1) ∧
        load w1.heap p = some { segments := none }) ∧
    (manager.get failingStorage tableCodec 0 "a" pooledWorld
        = some (manager.acquire 0 pooledWorld) ∧
      load (manager.acquire 0 pooledWorld).2.heap (manager.acquire 0 pooledWorld).1
        = some { segments := none }) ∧
    (∃ p w1, manager.get mapStorage tableCodec 0 "k" (World.init [demoSeg] (some []))
        = some (p, w1) ∧
      load w1.heap p = some { segments := none }) :=
  ⟨(get_miss_empty failingStorage tableCodec [demoSeg] none
      [Op.release 0, Op.setRaw "a" (some [1]) 10, Op.get 5 "b"] pooledWorld rfl 0 "b").1 rfl
      (by decide),
   (get_miss_empty failingStorage tableCodec [demoSeg] none
      [Op.release 0, Op.setRaw "a" (some [1]) 10, Op.get 5 "b"] pooledWorld rfl 0 "a").2.1
      [("a", MemValue.raw (some [1]), 10)] (some [1]) rfl (by decide),
   (get_miss_empty mapStorage tableCodec [demoSeg] (some []) [] _ rfl 0 "k").2.2
      [] rfl (Or.inr (by decide))⟩

/-- Counterexample to C8: a persistent backend that already holds bytes for `k`
when `newManager` is called. No `set` or `setRaw` is ever made, and `get` returns
a container with the decoded entry `v1`. -/
theorem get_never_set_counterexample :
    run mapStorage tableCodec (World.init [] (some [("k", some [1, 1])])) []
      = some (World.init [] (some [("k", some [1, 1])])) ∧
    ∃ w1, manager.get mapStorage tableCodec 0 "k" (World.init [] (some [("k", some [1, 1])]))
        = some (0, w1) ∧
      load w1.heap 0 = some { segments := some [("v1", mkItem [104, 105] 200)] } :=
  ⟨rfl, _, rfl, rfl⟩

/-- C10. Delete then miss, in both backend modes: in every reachable state
(after any earlier calls), after `del(key)` a following `get(key)` returns a
container with nil `segments` and a following `getRaw(key)` returns nil, while
for every other key `getRaw` returns the same bytes and `get` the same container
with the same content as before the `del`. In persistent mode the hypothesis is
that the backend `Delete` succeeds and removes only that key: afterwards `Get`
has no bytes for the key and answers as before for every other key. -/
theorem del_then_miss (heap0 : Heap) (storage : Option σ) (ops : List Op)
    (w : World σ) (hr : run S C (World.init heap0 storage) ops = some w)
    (pick : Nat) (key : String)
    (hback : ∀ st, w.m.storage = some st →
      (S.Delete st key).1 = none ∧
      (S.Get (S.Delete st key).2 key).1.1 = none ∧
      ∀ k, k ≠ key → (S.Get (S.Delete st key).2 k).1 = (S.Get st k).1) :
    ∃ w1, manager.del S key w = some w1 ∧
      (∃ p w2, manager.get S C pick key w1 = some (p, w2) ∧
        load w2.heap p = some { segments := none }) ∧
      (∃ w2, manager.getRaw S key w1 = some (none, w2)) ∧
      (∀ k, k ≠ key →
        (manager.getRaw S k w1).map Prod.fst = (manager.getRaw S k w).map Prod.fst ∧
        (manager.get S C pick k w1).map (fun r => (r.1, load r.2.heap r.1))
          = (manager.get S C pick k w).map (fun r => (r.1, load r.2.heap r.1))) := by
  have hinv := reachable_inv S C heap0 storage ops w hr
  cases hst : w.m.storage with
  | none =>
    obtain ⟨mem, hmem⟩ := inv_memory w hinv hst
    have hdel : manager.del S key w
        = some { w with m := { w.m with memory := some (memory.Delete mem key) } } := by
      unfold manager.del
      rw [hst, hmem]
    have hinv1 := del_inv S key w _ hinv hdel
    have hgone := memory_Get_Delete_self mem key
    have hget := get_memory_miss S C pick key
      { w with m := { w.m with memory := some (memory.Delete mem key) } }
      (memory.Delete mem key) hst rfl (by rw [hgone]; simp)
    have hgetRaw := getRaw_memory_miss S key
      { w with m := { w.m with memory := some (memory.Delete mem key) } }
      (memory.Delete mem key) hst rfl (by rw [hgone]; simp)
    refine ⟨_, hdel, ⟨_, _, hget, (acquire_spec pick _ hinv1).2.1⟩, ⟨_, hgetRaw⟩, ?_⟩
    · intro k hk
      have hsame := memory_Get_Delete_ne mem key k (fun h => hk h.symm)
      constructor
      · unfold manager.getRaw
        simp only [hst, hmem, hsame]
        cases memory.Get mem k with
        | none => rfl
        | some v => cases v <;> rfl
      · unfold manager.get
        simp only [hst, hmem, hsame]
        cases memory.Get mem k with
        | none =>
          simp only [manager.acquire]
          cases w.m.pool[pick]? <;> rfl
        | some v =>
          cases v with
          | seg p => rfl
          | raw b =>
            simp only [manager.acquire]
            cases w.m.pool[pick]? <;> rfl
  | some st =>
    have hs : w.m.storage.isSome = true := by rw [hst]; rfl
    have hp := (hinv.1 hs).2
    obtain ⟨_, hgone, hothers⟩ := hback st hst
    have hdel : manager.del S key w
        = some { w with m := { w.m with storage := some (S.Delete st key).2 } } := by
      unfold manager.del
      rw [hst]
    refine ⟨_, hdel, ?_, ?_, ?_⟩
    · obtain ⟨w2, hg, hl, _⟩ := get_persistent S C pick key
        { w with m := { w.m with storage := some (S.Delete st key).2 } }
        (S.Delete st key).2 rfl hp
      refine ⟨_, w2, hg, ?_⟩
      rw [hl, hgone]
      simp only [Option.isSome_none, Bool.false_eq_true, if_false, ite_self]
      rfl
    · have hg := getRaw_persistent S key
        { w with m := { w.m with storage := some (S.Delete st key).2 } }
        (S.Delete st key).2 rfl
      rw [hgone] at hg
      exact ⟨_, hg⟩
    · intro k hk
      have hsame := hothers k hk
      constructor
      · rw [getRaw_persistent S k _ (S.Delete st key).2 rfl, getRaw_persistent S k w st hst]
        simp only [Option.map_some', hsame]
      · obtain ⟨w2, hg2, hl2, _⟩ := get_persistent S C pick k
          { w with m := { w.m with storage := some (S.Delete st key).2 } }
          (S.Delete st key).2 rfl hp
        obtain ⟨w3, hg3, hl3, _⟩ := get_persistent S C pick k w st hst hp
        rw [hg2, hg3]
        simp only [Option.map_some']
        rw [hl2, hl3, hsame]

/-- Witness of C10, in memory mode (after a `set` of `a` and a `setRaw` of `b`)
and in persistent mode (the same calls, on a backend keeping its bindings in a
list). -/
theorem del_then_miss_witness :
    (∃ w0, run failingStorage tableCodec (World.init [demoSeg] none)
        [Op.set "a" 0 10, Op.setRaw "b" (some [9]) 10] = some w0 ∧
      ∃ w1, manager.del failingStorage "a" w0 = some w1 ∧
        (∃ p w2, manager.get failingStorage tableCodec 0 "a" w1 = some (p, w2) ∧
          load w2.heap p = some { segments := none }) ∧
        (∃ w2, manager.getRaw failingStorage "a" w1 = some (none, w2)) ∧
        (∀ k, k ≠ "a" →
          (manager.getRaw failingStorage k w1).map Prod.fst
            = (manager.getRaw failingStorage k w0).map Prod.fst ∧
          (manager.get failingStorage tableCodec 0 k w1).map (fun r => (r.1, load r.2.heap r.1))
            = (manager.get failingStorage tableCodec 0 k w0).map
                (fun r => (r.1, load r.2.heap r.1)))) ∧
    (∃ w0, run mapStorage tableCodec (World.init [demoSeg] (some []))
        [Op.set "a" 0 10, Op.setRaw "b" (some [9]) 10] = some w0 ∧
      ∃ w1, manager.del mapStorage "a" w0 = some w1 ∧
        (∃ p w2, manager.get mapStorage tableCodec 0 "a" w1 = some (p, w2) ∧
          load w2.heap p = some { segments := none }) ∧
        (∃ w2, manager.getRaw mapStorage "a" w1 = some (none, w2)) ∧
        (∀ k, k ≠ "a" →
          (manager.getRaw mapStorage k w1).map Prod.fst
            = (manager.getRaw mapStorage k w0).map Prod.fst ∧
          (manager.get mapStorage tableCodec 0 k w1).map (fun r => (r.1, load r.2.heap r.1))
            = (manager.get mapStorage tableCodec 0 k w0).map
                (fun r => (r.1, load r.2.heap r.1)))) :=
  ⟨⟨_, rfl, del_then_miss failingStorage tableCodec [demoSeg] none
      [Op.set "a" 0 10, Op.setRaw "b" (some [9]) 10] _ rfl 0 "a"
      (fun _ h => by simp [World.init, newManager] at h)⟩,
   ⟨_, rfl, del_then_miss mapStorage tableCodec [demoSeg] (some [])
      [Op.set "a" 0 10, Op.setRaw "b" (some [9]) 10] _ rfl 0 "a"
      (fun st h => by
        have hst : st = [("b", some [9]), ("a", some [1, 1])] := Option.some.inj h.symm
        subst hst
        refine ⟨rfl, by decide, ?_⟩
        intro k hk
        have h1 : ¬ "b" = k → ¬ "a" = k → (mapStorage.Get [("b", some [9])] k).1
            = (mapStorage.Get [("b", some [9]), ("a", some [1, 1])] k).1 := by
          intro hb ha
          simp [mapStorage, List.find?_cons, hb, ha]
        by_cases hb : "b" = k
        · subst hb
          decide
        · exact h1 hb (fun h => hk h.symm))⟩⟩

end Claims

end Cache
